import Mathlib

set_option maxHeartbeats 1000000

/-
  Verification of the birthday-derivation pipeline of
  custom_components/gramps_ha/grampsweb_api.py (class GrampsWebAPI).

  The Python code is shallowly embedded: every method of the class that the
  pipeline uses is translated to a pure Lean function.  I/O is made explicit:
  the event fetch capability (`self._get("events/<handle>")`) is a parameter
  `fetchEv : String → Option Event` (`Option.none` = the request raised or the
  event is not found, both of which the code treats alike), the person-list
  fetch outcome is a parameter of type `PeopleFetch`, and `date.today()` is an
  explicit `today : Date` argument.  Logging statements and the purely
  diagnostic loops of `get_birthdays` (which only log) have no effect on the
  returned value and are omitted.
-/

/-- A loosely typed JSON-ish value, as the Gramps payload may carry anything
under the event-reference keys.  `vnone` is Python `None` (also what
`dict.get` returns for a missing key); `vother b` stands for any non-string
non-int value with truthiness `b`. -/
inductive PyVal where
  | vnone
  | vstr (s : String)
  | vint (n : Int)
  | vother (truthy : Bool)
  deriving DecidableEq, Repr

/-- Python truthiness for the values above (`""` and `0` are falsy). -/
def pyTruthy : PyVal → Bool
  | PyVal.vnone => false
  | PyVal.vstr s => s != ""
  | PyVal.vint n => n != 0
  | PyVal.vother b => b

/-- `d.get(k)` on a dict modelled as an association list (keys distinct),
returning Python `None` when the key is missing. -/
def dget (d : List (String × PyVal)) (k : String) : PyVal :=
  match d.find? (fun e => e.1 == k) with
  | Option.some e => e.2
  | Option.none => PyVal.vnone

/-- Python `str.lower()`, restricted to its ASCII action (the embedding's
letter data is ASCII). -/
def pyLower (s : String) : String :=
  String.mk (s.data.map Char.toLower)

/-- Python `str.strip()` with no argument: trim whitespace on both ends. -/
def pyStrip (s : String) : String :=
  String.mk (((s.data.dropWhile Char.isWhitespace).reverse.dropWhile
    Char.isWhitespace).reverse)

/-- Python `sep in s` for a single separator character. -/
def strContainsChar (s : String) (c : Char) : Bool :=
  s.data.contains c

/-- Python `s.split(sep)` for a one-character separator, over char lists. -/
def splitOnChar (sep : Char) : List Char → List (List Char)
  | [] => [[]]
  | c :: cs =>
    let r := splitOnChar sep cs
    if c == sep then [] :: r
    else
      match r with
      | [] => [[c]]
      | g :: gs => (c :: g) :: gs

/-- `handle.rstrip("/").split("/")[-1]`: strip trailing separators, keep the
final path segment. -/
def lastSegment (s : String) : String :=
  String.mk ((splitOnChar '/'
    ((s.data.reverse.dropWhile (fun c => c == '/')).reverse)).getLastD [])

/-- The loop `for key in ("ref", "handle", "hlink"): candidate = event_ref.get(key);
if candidate: handle = candidate; break` — the value left in `handle`
(`vnone` when no key holds a truthy value). -/
def first_truthy_key (d : List (String × PyVal)) : List String → PyVal
  | [] => PyVal.vnone
  | k :: ks => if pyTruthy (dget d k) then dget d k else first_truthy_key d ks

/-- `GrampsWebAPI._resolve_event_handle`.  An event reference is a dict
(`Option.none` models the reference object itself being `None`). -/
def resolve_event_handle (event_ref : Option (List (String × PyVal))) : Option String :=
  match event_ref with
  | Option.none => Option.none
  | Option.some d =>
    if d.isEmpty then Option.none
    else
      let handle := first_truthy_key d ["ref", "handle", "hlink"]
      if pyTruthy handle = false then Option.none
      else
        match handle with
        | PyVal.vstr s =>
            Option.some (if strContainsChar s '/' then lastSegment s else s)
        | _ => Option.none

/-- One entry of a Gramps `dateval` sequence: either a value `int(v)` accepts
(carrying that integer) or one it rejects. -/
inductive DV where
  | int (n : Int)
  | nonInt
  deriving DecidableEq, Repr

/-- `int(v)` on a dateval entry. -/
def dvToInt : DV → Option Int
  | DV.int n => Option.some n
  | DV.nonInt => Option.none

/-- CPython `datetime`'s leap-year rule (proleptic Gregorian calendar). -/
def isLeap (y : Nat) : Bool :=
  y % 4 == 0 && (y % 100 != 0 || y % 400 == 0)

/-- Days in a month of the given (1-based) index, per CPython `datetime`. -/
def daysInMonth (leap : Bool) (m : Nat) : Nat :=
  match m with
  | 1 => 31
  | 2 => if leap then 29 else 28
  | 3 => 31
  | 4 => 30
  | 5 => 31
  | 6 => 30
  | 7 => 31
  | 8 => 31
  | 9 => 30
  | 10 => 31
  | 11 => 30
  | 12 => 31
  | _ => 0

/-- A Python `datetime.date` value (fields as stored; validity is a separate
predicate, since `date(...)` rejects invalid triples). -/
structure Date where
  year : Nat
  month : Nat
  day : Nat
  deriving DecidableEq, Repr

/-- The constraints `datetime.date(y, m, d)` enforces
(`MINYEAR = 1`, `MAXYEAR = 9999`). -/
def Date.Valid (dt : Date) : Prop :=
  1 ≤ dt.year ∧ dt.year ≤ 9999 ∧ 1 ≤ dt.month ∧ dt.month ≤ 12 ∧
    1 ≤ dt.day ∧ dt.day ≤ daysInMonth (isLeap dt.year) dt.month

instance instDecDateValid (dt : Date) : Decidable dt.Valid := by
  unfold Date.Valid
  exact inferInstance

/-- The constructor call `date(year, month, day)`: `Option.some` on success,
`Option.none` when CPython would raise `ValueError` (callers of the embedded
code always catch that exception). -/
def mkDate (y m d : Int) : Option Date :=
  if 1 ≤ y ∧ y ≤ 9999 ∧ 1 ≤ m ∧ m ≤ 12 ∧ 1 ≤ d ∧
      d ≤ (daysInMonth (isLeap y.toNat) m.toNat : Int) then
    Option.some ⟨y.toNat, m.toNat, d.toNat⟩
  else
    Option.none

/-- Python `date` comparison (`<`), lexicographic on (year, month, day). -/
def dateLt (a b : Date) : Prop :=
  a.year < b.year ∨ (a.year = b.year ∧
    (a.month < b.month ∨ (a.month = b.month ∧ a.day < b.day)))

instance instDecDateLt (a b : Date) : Decidable (dateLt a b) := by
  unfold dateLt
  exact inferInstance

/-- The plausibility check of one candidate ordering in `_parse_dateval`:
`year >= 100`, `1 <= month <= 12`, `1 <= day <= 31`. -/
def comboOK (y m d : Int) : Prop :=
  100 ≤ y ∧ 1 ≤ m ∧ m ≤ 12 ∧ 1 ≤ d ∧ d ≤ 31

instance instDecComboOK (y m d : Int) : Decidable (comboOK y m d) := by
  unfold comboOK
  exact inferInstance

/-- `GrampsWebAPI._parse_dateval` on a sequence.  The code takes
`dateval[:3]`, rejects fewer than three entries, converts each with `int`,
then walks the orderings `[(2,1,0), (0,1,2), (0,2,1)]` (as `(y, m, d)` index
triples) and on the first ordering passing the plausibility check returns
`date(year, month, day)`.  A `ValueError` from that constructor propagates to
the surrounding `try` and yields `None` — later orderings are not consulted. -/
def parse_dateval (dateval : List DV) : Option Date :=
  match dateval.take 3 with
  | [v1, v2, v3] =>
    match dvToInt v1, dvToInt v2, dvToInt v3 with
    | Option.some a, Option.some b, Option.some c =>
      if comboOK c b a then mkDate c b a
      else if comboOK a b c then mkDate a b c
      else if comboOK a c b then mkDate a c b
      else Option.none
    | _, _, _ => Option.none
  | _ => Option.none

/-- An event record as `_fetch_event_date` consumes it: `type_str` is the
computed type label (`type.get("string", "")` when `type` is a dict, else
`str(type)`), `dateval` is `date.dateval` with a missing/empty field
modelled as `[]`. -/
structure Event where
  type_str : String
  dateval : List DV
  deriving DecidableEq, Repr

/-- `needle in hay` on Python strings: substring containment, via the
character lists (`startsWithL pat l` = `l` starts with `pat`). -/
def startsWithL : List Char → List Char → Bool
  | [], _ => true
  | _ :: _, [] => false
  | a :: as, b :: bs => a == b && startsWithL as bs

/-- Does the second list contain the first as a contiguous run. -/
def containsSubL (pat : List Char) : List Char → Bool
  | [] => startsWithL pat []
  | b :: bs => startsWithL pat (b :: bs) || containsSubL pat bs

/-- Python `needle in hay` for strings. -/
def pyIn (needle hay : String) : Bool :=
  containsSubL needle.toList hay.toList

/-- The path cleanup both `_resolve_event_handle` and `_fetch_event_date`
perform: `if "/" in handle: handle = handle.rstrip("/").split("/")[-1]`. -/
def cleanHandle (h : String) : String :=
  if strContainsChar h '/' then lastSegment h else h

/-- `GrampsWebAPI._fetch_event_date`.  `fetchEv` is the
`self._get(f"events/{handle}")` capability; `Option.none` stands for the
request raising (the method catches every exception and returns `None`).
When `require_birth` is set, the event's type label must contain `"birth"`
case-insensitively. -/
def fetch_event_date (fetchEv : String → Option Event) (event_handle : String)
    (require_birth : Bool) : Option Date :=
  if event_handle = "" then Option.none
  else
    match fetchEv (cleanHandle event_handle) with
    | Option.none => Option.none
    | Option.some event_data =>
      if require_birth = true ∧ pyIn "birth" (pyLower event_data.type_str) = false then
        Option.none
      else
        parse_dateval event_data.dateval

/-- The parts of `primary_name` that `_get_person_name` reads.  Each entry of
`surname_list` is modelled by the string `entry.get("surname", "")`. -/
structure PrimaryName where
  first_name : String
  surname_list : List String
  deriving DecidableEq, Repr

/-- A person record, restricted to the attributes the pipeline consumes.
`Option.none` on a field models the key being absent from the dict. -/
structure Person where
  primary_name : Option PrimaryName
  event_ref_list : List (Option (List (String × PyVal)))
  birth_ref_index : Option Int
  death_ref_index : Option Int
  deriving DecidableEq, Repr

/-- `GrampsWebAPI._get_person_name`. -/
def get_person_name (person : Person) : String :=
  let pn := person.primary_name.getD ⟨"", []⟩
  let surname := pn.surname_list.headD ""
  let full_name := pyStrip (pn.first_name ++ " " ++ surname)
  if full_name = "" then "Unknown" else full_name

/-- `GrampsWebAPI._is_person_alive`: alive iff
`person.get("death_ref_index", -1) == -1`.  (The `try` around it cannot fail
on a dict input, so the fail-open branch is unreachable in the model.) -/
def is_person_alive (person : Person) : Bool :=
  let death_ref_index : Int := person.death_ref_index.getD (-1)
  if death_ref_index = -1 then true else false

/-- One candidate of the scan loops of `_has_birth_date` /
`_extract_birth_date`: resolve the reference, skip it if unresolvable, else
fetch and parse its date. -/
def try_ref (fetchEv : String → Option Event) (require_birth : Bool)
    (event_ref : Option (List (String × PyVal))) : Option Date :=
  match resolve_event_handle event_ref with
  | Option.some h => fetch_event_date fetchEv h require_birth
  | Option.none => Option.none

/-- The shared first step of `_has_birth_date` and `_extract_birth_date`:
if `person.get("birth_ref_index", -1)` is a valid index into
`event_ref_list`, try that entry. -/
def birth_index_probe (fetchEv : String → Option Event) (require_birth : Bool)
    (person : Person) : Option Date :=
  let birth_ref_index := person.birth_ref_index.getD (-1)
  if 0 ≤ birth_ref_index ∧ birth_ref_index < (person.event_ref_list.length : Int) then
    match person.event_ref_list[birth_ref_index.toNat]? with
    | Option.some event_ref => try_ref fetchEv require_birth event_ref
    | Option.none => Option.none
  else
    Option.none

/-- `GrampsWebAPI._has_birth_date`: the indexed probe, then a scan of the
whole `event_ref_list`, with no birth-type requirement anywhere. -/
def has_birth_date (fetchEv : String → Option Event) (person : Person) : Bool :=
  (birth_index_probe fetchEv false person).isSome ||
    (person.event_ref_list.findSome? (try_ref fetchEv false)).isSome

/-- `GrampsWebAPI._extract_birth_date`: the indexed probe, then a scan of the
whole `event_ref_list`, both with `require_birth=True`. -/
def extract_birth_date (fetchEv : String → Option Event) (person : Person) : Option Date :=
  match birth_index_probe fetchEv true person with
  | Option.some parsed => Option.some parsed
  | Option.none => person.event_ref_list.findSome? (try_ref fetchEv true)

/-- The dict `_calculate_next_birthday` builds (the code stores the two dates
as their `isoformat()` strings, an injective rendering we keep as `Date`). -/
structure BirthdayInfo where
  person_name : String
  birth_date : Date
  next_birthday : Date
  age : Int
  days_until : Int
  deriving DecidableEq, Repr

/-- `birth_date.replace(year=y)` — `date.replace` reconstructs the date and
re-validates, raising for e.g. Feb 29 in a non-leap year. -/
def replaceYear (dt : Date) (y : Int) : Option Date :=
  mkDate y (dt.month : Int) (dt.day : Int)

/-- `datetime.date.toordinal`: days since December 31 of year 0 in the
proleptic Gregorian calendar.  `daysBeforeYear` is CPython's
`_days_before_year` (terms reordered so the truncating `Nat` subtraction
never clips: `(y-1)/100 ≤ (y-1)/4`). -/
def daysBeforeYear (y : Nat) : Nat :=
  365 * (y - 1) + (y - 1) / 4 + (y - 1) / 400 - (y - 1) / 100

/-- CPython's `_days_before_month`. -/
def daysBeforeMonth (leap : Bool) (m : Nat) : Nat :=
  (match m with
   | 1 => 0
   | 2 => 31
   | 3 => 59
   | 4 => 90
   | 5 => 120
   | 6 => 151
   | 7 => 181
   | 8 => 212
   | 9 => 243
   | 10 => 273
   | 11 => 304
   | 12 => 334
   | _ => 0) + (if leap ∧ 2 < m then 1 else 0)

/-- `date.toordinal()`. -/
def toOrdinal (dt : Date) : Nat :=
  daysBeforeYear dt.year + daysBeforeMonth (isLeap dt.year) dt.month + dt.day

/-- `GrampsWebAPI._calculate_next_birthday` with `date.today()` passed in.
`(next_birthday - today).days` is the ordinal difference; a `ValueError`
from either `replace` call is caught by the method and yields `None`. -/
def calculate_next_birthday (today : Date) (birth_date : Date) (name : String) :
    Option BirthdayInfo :=
  let current_year : Int := (today.year : Int)
  match replaceYear birth_date current_year with
  | Option.none => Option.none
  | Option.some this_year_birthday =>
    let next? : Option Date :=
      if dateLt this_year_birthday today then
        replaceYear birth_date (current_year + 1)
      else
        Option.some this_year_birthday
    match next? with
    | Option.none => Option.none
    | Option.some next_birthday =>
      Option.some
        ⟨name, birth_date, next_birthday,
          (next_birthday.year : Int) - (birth_date.year : Int),
          (toOrdinal next_birthday : Int) - (toOrdinal today : Int)⟩

/-- The comparison key of `birthdays.sort(key=lambda x: x["days_until"])`. -/
def birthdayLE (a b : BirthdayInfo) : Prop :=
  a.days_until ≤ b.days_until

instance instDecBirthdayLE : DecidableRel birthdayLE := fun a b => by
  unfold birthdayLE
  exact inferInstance

instance instTotalBirthdayLE : IsTotal BirthdayInfo birthdayLE :=
  ⟨fun a b => Int.le_total a.days_until b.days_until⟩

instance instTransBirthdayLE : IsTrans BirthdayInfo birthdayLE :=
  ⟨fun _ _ _ h1 h2 => Int.le_trans h1 h2⟩

/-- The per-person body of the main loop of `get_birthdays`: surname filter,
birth-date extraction, liveness check, next-birthday computation.
`Option.none` = the loop `continue`s without appending. -/
def birthday_row (fetchEv : String → Option Event) (today : Date)
    (surname_filter : String) (person : Person) : Option BirthdayInfo :=
  let name := get_person_name person
  if surname_filter ≠ "" ∧ pyIn (pyLower surname_filter) (pyLower name) = false then
    Option.none
  else
    match extract_birth_date fetchEv person with
    | Option.none => Option.none
    | Option.some birth_date =>
      if is_person_alive person then
        calculate_next_birthday today birth_date name
      else
        Option.none

/-- The `birthdays` list collected by the main loop of `get_birthdays`. -/
def collect_birthdays (fetchEv : String → Option Event) (today : Date)
    (surname_filter : String) (people_data : List Person) : List BirthdayInfo :=
  people_data.filterMap (birthday_row fetchEv today surname_filter)

/-- Python `l[:stop]` for an `int` stop (negative stops count from the end). -/
def pySliceTo {α : Type} (l : List α) (stop : Int) : List α :=
  if 0 ≤ stop then l.take stop.toNat else l.take (l.length - (-stop).toNat)

/-- Outcome of the `self.get_people()` call inside `get_birthdays`:
the call raised, or returned a JSON value (`data Option.none` = JSON null /
missing body, otherwise the decoded list). -/
inductive PeopleFetch where
  | fail
  | data (v : Option (List Person))
  deriving DecidableEq, Repr

/-- `GrampsWebAPI.get_birthdays(limit)`.  A raised person-list fetch and a
falsy (`None`/empty) person list both short-circuit to `[]`; the rest
filters on `_has_birth_date`, runs the main loop, sorts ascending (stably)
by `days_until`, and truncates with `birthdays[:limit]`. -/
def get_birthdays (fetchEv : String → Option Event) (today : Date)
    (surname_filter : String) (pf : PeopleFetch) (limit : Int) : List BirthdayInfo :=
  match pf with
  | PeopleFetch.fail => []
  | PeopleFetch.data Option.none => []
  | PeopleFetch.data (Option.some all_people) =>
    if all_people.isEmpty then []
    else
      let people_data := all_people.filter (has_birth_date fetchEv)
      if people_data.isEmpty then []
      else
        pySliceTo
          (List.insertionSort birthdayLE
            (collect_birthdays fetchEv today surname_filter people_data))
          limit

/-- The `limit` default of `get_birthdays` (`def get_birthdays(self, limit: int = 50)`). -/
def get_birthdays_default_limit : Int := 50

/-- A concrete event, person and reference date used to exercise the
pipeline theorems on a closed run. -/
def wEvent : Event := ⟨"Birth", [DV.int 10, DV.int 7, DV.int 1990]⟩

/-- A one-event fetch capability serving `wEvent` under handle `"e1"`. -/
def wFetch : String → Option Event :=
  fun h => if h = "e1" then Option.some wEvent else Option.none

/-- A living person whose single event reference resolves to `"e1"`. -/
def wPerson : Person :=
  ⟨Option.some ⟨"Ann", ["Lee"]⟩, [Option.some [("ref", PyVal.vstr "e1")]],
    Option.some 0, Option.none⟩

/-- A reference "today" shortly before the `wEvent` birthday. -/
def wToday : Date := ⟨2025, 7, 1⟩

/-- The single row the pipeline produces for `wPerson` on `wToday`. -/
def wResult : BirthdayInfo :=
  ⟨"Ann Lee", ⟨1990, 7, 10⟩, ⟨2025, 7, 10⟩, 35, 9⟩

/-! ### Specification-side definitions (written from the claims' wording, to be
related to the embedded code by the theorems below) -/

/-- The value `_resolve_event_handle` discovers: the keys `ref`, `handle`,
`hlink` examined in that priority order, taking the first candidate value
found (`vnone` when none is). -/
def discovered_value (d : List (String × PyVal)) : PyVal :=
  if pyTruthy (dget d "ref") then dget d "ref"
  else if pyTruthy (dget d "handle") then dget d "handle"
  else if pyTruthy (dget d "hlink") then dget d "hlink"
  else PyVal.vnone

/-- The first of the three orderings (day, month, year), (year, month, day),
(year, day, month) whose assigned `(year, month, day)` passes the
plausibility checks, for an input triple `[a, b, c]`. -/
def firstPassing (a b c : Int) : Option (Int × Int × Int) :=
  if comboOK c b a then Option.some (c, b, a)
  else if comboOK a b c then Option.some (a, b, c)
  else if comboOK a c b then Option.some (a, c, b)
  else Option.none

/-- An ordering that passes the plausibility checks and also yields a
constructible calendar date. -/
def goodCombo (y m d : Int) : Prop :=
  comboOK y m d ∧ (mkDate y m d).isSome = true

/-- The candidate-event search order of spec 4.3: the `birth_ref_index`
entry first when it is a valid index, then every entry of `event_ref_list`
in sequence order. -/
def candidate_refs (person : Person) : List (Option (List (String × PyVal))) :=
  (let bri := person.birth_ref_index.getD (-1)
   if 0 ≤ bri ∧ bri < (person.event_ref_list.length : Int) then
     match person.event_ref_list[bri.toNat]? with
     | Option.some r => [r]
     | Option.none => []
   else []) ++ person.event_ref_list

/-- Evidence that a person owns a resolvable, fetchable event whose type
label contains "birth" case-insensitively and whose dateval parses to `d`. -/
def BirthEvidence (fetchEv : String → Option Event) (person : Person) (d : Date) : Prop :=
  ∃ event_ref ∈ person.event_ref_list, ∃ h,
    resolve_event_handle event_ref = Option.some h ∧ h ≠ "" ∧
      ∃ ev, fetchEv (cleanHandle h) = Option.some ev ∧
        pyIn "birth" (pyLower ev.type_str) = true ∧
        parse_dateval ev.dateval = Option.some d

/-! ### Calendar arithmetic lemmas -/

theorem isLeap_spec (n : Nat) :
    isLeap n = true ↔ (n % 4 = 0 ∧ (n % 100 ≠ 0 ∨ n % 400 = 0)) := by
  simp [isLeap]

theorem daysBeforeYear_succ (y : Nat) (hy : 1 ≤ y) :
    daysBeforeYear (y + 1) = daysBeforeYear y + (if isLeap y then 366 else 365) := by
  obtain ⟨w, rfl⟩ : ∃ w, y = w + 1 := ⟨y - 1, by omega⟩
  have hq : w + 1 + 1 - 1 = w + 1 := by omega
  have hq2 : w + 1 - 1 = w := by omega
  have h4 := Nat.succ_div w 4
  have h100 := Nat.succ_div w 100
  have h400 := Nat.succ_div w 400
  simp only [Nat.dvd_iff_mod_eq_zero] at h4 h100 h400
  have hs1 : w / 100 ≤ 365 * w + w / 4 + w / 400 := by
    have ha := Nat.div_le_self w 100
    have hbb := Nat.le_mul_of_pos_left w (show 0 < 365 by norm_num)
    omega
  have hs2 : (w + 1) / 100 ≤ 365 * (w + 1) + (w + 1) / 4 + (w + 1) / 400 := by
    have ha := Nat.div_le_self (w + 1) 100
    have hbb := Nat.le_mul_of_pos_left (w + 1) (show 0 < 365 by norm_num)
    omega
  unfold daysBeforeYear
  rw [hq, hq2]
  cases hb : isLeap (w + 1) with
  | true =>
    have hmod := (isLeap_spec (w + 1)).mp hb
    rw [if_pos rfl, h4, h100, h400]
    clear hb hy hq hq2 h4 h100 h400
    split_ifs with d1 d2 d3 d4 d5 d6 d7 <;> omega
  | false =>
    have hmod : ¬ ((w + 1) % 4 = 0 ∧ ((w + 1) % 100 ≠ 0 ∨ (w + 1) % 400 = 0)) := by
      intro hc
      rw [(isLeap_spec (w + 1)).mpr hc] at hb
      exact Bool.true_eq_false.mp hb
    rw [if_neg (by simp [hb]), h4, h100, h400]
    clear hb hy hq hq2 h4 h100 h400
    split_ifs with d1 d2 d3 d4 d5 d6 d7 <;> omega

theorem nat_div_add_le (a d k : Nat) (hk : 1 ≤ k) : (a + d) / k ≤ a / k + d := by
  have h1 : a + d ≤ a + k * d := by
    have := Nat.le_mul_of_pos_left d (show 0 < k by omega)
    omega
  calc (a + d) / k ≤ (a + k * d) / k := Nat.div_le_div_right h1
    _ = a / k + d := by rw [Nat.add_mul_div_left _ _ (show 0 < k by omega)]

theorem daysBeforeYear_mono (y1 y2 : Nat) (h : y1 ≤ y2) :
    daysBeforeYear y1 ≤ daysBeforeYear y2 := by
  unfold daysBeforeYear
  have e4 : (y1 - 1) / 4 ≤ (y2 - 1) / 4 := Nat.div_le_div_right (by omega)
  have e400 : (y1 - 1) / 400 ≤ (y2 - 1) / 400 := Nat.div_le_div_right (by omega)
  have e100 : (y2 - 1) / 100 ≤ (y1 - 1) / 100 + ((y2 - 1) - (y1 - 1)) := by
    have h2 : y2 - 1 = (y1 - 1) + ((y2 - 1) - (y1 - 1)) := by omega
    calc (y2 - 1) / 100 = ((y1 - 1) + ((y2 - 1) - (y1 - 1))) / 100 := by rw [← h2]
      _ ≤ (y1 - 1) / 100 + ((y2 - 1) - (y1 - 1)) := nat_div_add_le _ _ _ (by omega)
  have e100b : (y1 - 1) / 100 ≤ (y1 - 1) / 4 := Nat.div_le_div_left (by norm_num) (by norm_num)
  have e100c : (y2 - 1) / 100 ≤ (y2 - 1) / 4 := Nat.div_le_div_left (by norm_num) (by norm_num)
  omega

theorem daysInMonth_ge (leap : Bool) (m : Nat) (h1 : 1 ≤ m) (h2 : m ≤ 12) :
    28 ≤ daysInMonth leap m := by
  interval_cases m <;> cases leap <;> simp [daysInMonth]

theorem dayOfYear_bounds (leap : Bool) (m d : Nat) (hm1 : 1 ≤ m) (hm2 : m ≤ 12)
    (hd1 : 1 ≤ d) (hd2 : d ≤ daysInMonth leap m) :
    1 ≤ daysBeforeMonth leap m + d ∧
      daysBeforeMonth leap m + d ≤ (if leap then 366 else 365) := by
  interval_cases m <;> cases leap <;>
    simp [daysBeforeMonth, daysInMonth] at hd2 ⊢ <;> omega

theorem sameYear_strict (leap : Bool) (m1 d1 m2 d2 : Nat)
    (hm1 : 1 ≤ m1) (hm2 : m1 ≤ 12) (hn1 : 1 ≤ m2) (hn2 : m2 ≤ 12)
    (hd1 : d1 ≤ daysInMonth leap m1) (hd2 : 1 ≤ d2)
    (hlt : m1 < m2 ∨ (m1 = m2 ∧ d1 < d2)) :
    daysBeforeMonth leap m1 + d1 < daysBeforeMonth leap m2 + d2 := by
  interval_cases m1 <;> interval_cases m2 <;> cases leap <;>
    simp [daysBeforeMonth, daysInMonth] at hd1 hlt ⊢ <;> omega

theorem toOrdinal_lt_of_dateLt (a b : Date) (ha : a.Valid) (hb : b.Valid)
    (hlt : dateLt a b) : toOrdinal a < toOrdinal b := by
  obtain ⟨ha1, ha2, ha3, ha4, ha5, ha6⟩ := ha
  obtain ⟨hb1, hb2, hb3, hb4, hb5, hb6⟩ := hb
  rcases hlt with hy | ⟨hy, hmd⟩
  · have e1 := dayOfYear_bounds (isLeap a.year) a.month a.day ha3 ha4 ha5 ha6
    have e2 := dayOfYear_bounds (isLeap b.year) b.month b.day hb3 hb4 hb5 hb6
    have e3 := daysBeforeYear_succ a.year ha1
    have e4 := daysBeforeYear_mono (a.year + 1) b.year (by omega)
    unfold toOrdinal
    omega
  · have e2 := sameYear_strict (isLeap a.year) a.month a.day b.month b.day
      ha3 ha4 hb3 hb4 ha6 hb5 hmd
    unfold toOrdinal
    rw [hy] at e2 ⊢
    omega

theorem dateLt_trichotomy (a b : Date) : dateLt a b ∨ a = b ∨ dateLt b a := by
  cases a with
  | mk y1 m1 d1 =>
    cases b with
    | mk y2 m2 d2 =>
      unfold dateLt
      simp only [Date.mk.injEq]
      omega

theorem toOrdinal_inj (a b : Date) (ha : a.Valid) (hb : b.Valid)
    (h : toOrdinal a = toOrdinal b) : a = b := by
  rcases dateLt_trichotomy a b with hlt | heq | hgt
  · exact absurd h (Nat.ne_of_lt (toOrdinal_lt_of_dateLt a b ha hb hlt))
  · exact heq
  · exact absurd h.symm (Nat.ne_of_lt (toOrdinal_lt_of_dateLt b a hb ha hgt))

theorem toOrdinal_le_of_not_dateLt (a b : Date) (ha : a.Valid) (hb : b.Valid)
    (h : ¬ dateLt a b) : toOrdinal b ≤ toOrdinal a := by
  rcases dateLt_trichotomy a b with hlt | heq | hgt
  · exact absurd hlt h
  · exact heq ▸ Nat.le_refl _
  · exact Nat.le_of_lt (toOrdinal_lt_of_dateLt b a hb ha hgt)

theorem mkDate_some (y m d : Int) (dt : Date) (h : mkDate y m d = Option.some dt) :
    dt.Valid ∧ (dt.year : Int) = y ∧ (dt.month : Int) = m ∧ (dt.day : Int) = d := by
  unfold mkDate at h
  split_ifs at h with hc
  · obtain ⟨h1, h2, h3, h4, h5, h6⟩ := hc
    cases h
    simp only [Date.Valid]
    omega

theorem mkDate_isSome_iff (y m d : Int) :
    (mkDate y m d).isSome = true ↔
      (1 ≤ y ∧ y ≤ 9999 ∧ 1 ≤ m ∧ m ≤ 12 ∧ 1 ≤ d ∧
        d ≤ (daysInMonth (isLeap y.toNat) m.toNat : Int)) := by
  unfold mkDate
  split_ifs with hc <;> simp [hc]

theorem replaceYear_some (dt : Date) (y : Int) (res : Date)
    (h : replaceYear dt y = Option.some res) :
    res.Valid ∧ (res.year : Int) = y ∧ res.month = dt.month ∧ res.day = dt.day := by
  unfold replaceYear at h
  obtain ⟨hv, h1, h2, h3⟩ := mkDate_some _ _ _ _ h
  exact ⟨hv, h1, by omega, by omega⟩

theorem dateLt_irrefl (a : Date) : ¬ dateLt a a := by
  unfold dateLt
  omega

/-- Claim C3: for a valid `today`, whenever `_calculate_next_birthday` returns
a result, its `next_birthday` is the birth date with the year replaced by the
current year when that date is not before today, and by the next year
otherwise; `days_until` is the ordinal difference `(next - today).days`,
always nonnegative and zero exactly when today's month and day are the birth
month and day; and `age` is `next_birthday.year - birth_date.year`. -/
theorem calculate_next_birthday_spec (today birth_date : Date) (name : String)
    (r : BirthdayInfo) (htoday : today.Valid)
    (hr : calculate_next_birthday today birth_date name = Option.some r) :
    r.person_name = name ∧
    r.birth_date = birth_date ∧
    (∃ ty, replaceYear birth_date ((today.year : Int)) = Option.some ty ∧
      ((dateLt ty today ∧
          replaceYear birth_date ((today.year : Int) + 1) = Option.some r.next_birthday) ∨
        (¬ dateLt ty today ∧ r.next_birthday = ty))) ∧
    r.days_until = (toOrdinal r.next_birthday : Int) - (toOrdinal today : Int) ∧
    0 ≤ r.days_until ∧
    (r.days_until = 0 ↔ (today.month = birth_date.month ∧ today.day = birth_date.day)) ∧
    r.age = (r.next_birthday.year : Int) - (birth_date.year : Int) := by
  simp only [calculate_next_birthday] at hr
  cases hty : replaceYear birth_date ((today.year : Int)) with
  | none => rw [hty] at hr; cases hr
  | some ty =>
    rw [hty] at hr
    dsimp only [] at hr
    obtain ⟨hvty, hty1, hty2, hty3⟩ := replaceYear_some _ _ _ hty
    by_cases hlt : dateLt ty today
    · rw [if_pos hlt] at hr
      cases hny : replaceYear birth_date ((today.year : Int) + 1) with
      | none => rw [hny] at hr; cases hr
      | some ny =>
        rw [hny] at hr
        injection hr with hr
        subst hr
        obtain ⟨hvny, hny1, hny2, hny3⟩ := replaceYear_some _ _ _ hny
        have hord : toOrdinal today < toOrdinal ny := by
          apply toOrdinal_lt_of_dateLt today ny htoday hvny
          unfold dateLt
          omega
        refine ⟨rfl, rfl, ⟨ty, rfl, Or.inl ⟨hlt, by dsimp only⟩⟩, rfl,
          by dsimp only; omega, ?_, rfl⟩
        dsimp only
        constructor
        · intro h0
          omega
        · intro ⟨hm, hd⟩
          exfalso
          have hteq : ty = today := by
            cases ty with
            | mk a b c =>
              cases today with
              | mk a2 b2 c2 =>
                simp only [Date.mk.injEq]
                simp only at hty1 hty2 hty3 hm hd
                omega
          rw [hteq] at hlt
          exact dateLt_irrefl today hlt
    · rw [if_neg hlt] at hr
      injection hr with hr
      subst hr
      have hord : toOrdinal today ≤ toOrdinal ty :=
        toOrdinal_le_of_not_dateLt ty today hvty htoday hlt
      refine ⟨rfl, rfl, ⟨ty, rfl, Or.inr ⟨hlt, rfl⟩⟩, rfl, by dsimp only; omega, ?_, rfl⟩
      dsimp only
      constructor
      · intro h0
        have hoeq : toOrdinal ty = toOrdinal today := by omega
        have hteq : ty = today := toOrdinal_inj ty today hvty htoday hoeq
        rw [← hteq]
        omega
      · intro ⟨hm, hd⟩
        have hteq : ty = today := by
          cases ty with
          | mk a b c =>
            cases today with
            | mk a2 b2 c2 =>
              simp only [Date.mk.injEq]
              simp only at hty1 hty2 hty3 hm hd
              omega
        rw [hteq]
        omega

theorem isLeap_succ (y : Nat) (h : isLeap y = true) : isLeap (y + 1) = false := by
  have hm := (isLeap_spec y).mp h
  cases hb : isLeap (y + 1) with
  | false => rfl
  | true =>
    have := (isLeap_spec (y + 1)).mp hb
    omega

theorem mkDate_feb29 (y : Nat) (h1 : 1 ≤ y) :
    mkDate (y : Int) 2 29 =
      (if y ≤ 9999 ∧ isLeap y = true then Option.some ⟨y, 2, 29⟩ else Option.none) := by
  have hy : ((y : Int)).toNat = y := by omega
  unfold mkDate
  rw [hy]
  have h2n : ((2 : Int)).toNat = 2 := rfl
  rw [h2n]
  by_cases hb : y ≤ 9999 ∧ isLeap y = true
  · obtain ⟨hb1, hb2⟩ := hb
    rw [if_pos ⟨by omega, by omega, by omega, by omega, by omega,
        by rw [hb2]; norm_num [daysInMonth]⟩, if_pos ⟨hb1, hb2⟩]
    rfl
  · rw [if_neg, if_neg hb]
    intro hc
    apply hb
    refine ⟨by omega, ?_⟩
    rcases hl : isLeap y with _ | _
    · have := hc.2.2.2.2.2
      rw [hl] at this
      norm_num [daysInMonth] at this
    · rfl

/-- Claim C10: for a February 29 birth date, `_calculate_next_birthday`
returns a result exactly when the current year is a leap year and February 29
of the current year is on or after today; otherwise (including when only the
following year is leap) the `date.replace` construction fails and the
calculator returns `None`, so the person is dropped for that cycle. -/
theorem feb29_next_birthday (today birth_date : Date) (name : String)
    (htoday : today.Valid) (hm : birth_date.month = 2) (hd : birth_date.day = 29) :
    (calculate_next_birthday today birth_date name).isSome = true ↔
      (isLeap today.year = true ∧ ¬ dateLt ⟨today.year, 2, 29⟩ today) := by
  obtain ⟨h1, h2, _, _, _, _⟩ := htoday
  simp only [calculate_next_birthday]
  have hra : replaceYear birth_date ((today.year : Int)) = mkDate (today.year : Int) 2 29 := by
    unfold replaceYear
    rw [hm, hd]
    norm_num
  rw [hra, mkDate_feb29 today.year h1]
  cases hleap : isLeap today.year with
  | false =>
    rw [if_neg (by simp [hleap])]
    simp [hleap]
  | true =>
    rw [if_pos ⟨h2, rfl⟩]
    dsimp only
    by_cases hlt : dateLt ⟨today.year, 2, 29⟩ today
    · rw [if_pos hlt]
      have hrb : replaceYear birth_date ((today.year : Int) + 1) =
          mkDate ((today.year + 1 : Nat) : Int) 2 29 := by
        unfold replaceYear
        rw [hm, hd]
        push_cast
        ring_nf
      rw [hrb, mkDate_feb29 (today.year + 1) (by omega),
        if_neg (by simp [isLeap_succ today.year hleap])]
      simp [hlt]
    · rw [if_neg hlt]
      simp [hlt]

/-! ### Claim support lemmas and claim theorems -/

theorem alive_iff_getD (person : Person) :
    is_person_alive person = true ↔ person.death_ref_index.getD (-1) = -1 := by
  simp [is_person_alive]

/-- Claim C5: `_is_person_alive` returns true iff `death_ref_index` is
missing (defaulted to -1) or equals -1; any other stored index, including 0,
yields false.  The function consults no event data at all (its type takes no
fetch capability), so the result is independent of whether the referenced
death event resolves or fetches. -/
theorem is_person_alive_spec (person : Person) :
    is_person_alive person = true ↔
      (person.death_ref_index = Option.none ∨
        person.death_ref_index = Option.some (-1)) := by
  rw [alive_iff_getD]
  cases person.death_ref_index with
  | none => simp
  | some n => simp

/-- Claim C7: when the person-list fetch raises, `get_birthdays` returns the
empty list instead of propagating (the model's total function has no failure
channel); the same empty result is produced when the list is absent (JSON
null) or empty. -/
theorem get_birthdays_failsoft (fetchEv : String → Option Event) (today : Date)
    (surname_filter : String) (limit : Int) :
    get_birthdays fetchEv today surname_filter PeopleFetch.fail limit = [] ∧
    get_birthdays fetchEv today surname_filter (PeopleFetch.data Option.none) limit = [] ∧
    get_birthdays fetchEv today surname_filter
      (PeopleFetch.data (Option.some [])) limit = [] :=
  ⟨rfl, rfl, rfl⟩

/-- Claim C2: on an integer triple, `_parse_dateval` computes exactly the
date built (by `date(...)`) from the first of the orderings
(day, month, year), (year, month, day), (year, day, month) whose assigned
year is ≥ 100, month in [1,12] and day in [1,31]; no later ordering is
consulted once one passes the plausibility checks (`firstPassing` is those
checks transcribed from the claim, and `Option.bind` consults only that
first passing ordering). -/
theorem parse_dateval_orderings (a b c : Int) :
    parse_dateval [DV.int a, DV.int b, DV.int c] =
      (firstPassing a b c).bind (fun t => mkDate t.1 t.2.1 t.2.2) := by
  unfold parse_dateval firstPassing
  simp only [List.take, dvToInt]
  split_ifs <;> rfl

theorem first_truthy_eq_discovered (d : List (String × PyVal)) :
    first_truthy_key d ["ref", "handle", "hlink"] = discovered_value d := by
  simp only [first_truthy_key, discovered_value]

theorem discovered_truthy (d : List (String × PyVal)) :
    discovered_value d = PyVal.vnone ∨ pyTruthy (discovered_value d) = true := by
  unfold discovered_value
  split_ifs with h1 h2 h3
  · exact Or.inr h1
  · exact Or.inr h2
  · exact Or.inr h3
  · exact Or.inl rfl

/-- Claim C9: `_resolve_event_handle` examines the keys `ref`, `handle`,
`hlink` in that priority order and takes the first candidate value found
(`discovered_value` is that priority scan transcribed from the claim); when
that value is a string containing '/', only the final path segment after
stripping trailing separators is returned; and the result is `None` whenever
the reference is absent or the mapping is empty or the discovered value is
not a string. -/
theorem resolve_event_handle_spec (er : Option (List (String × PyVal))) :
    (er = Option.none → resolve_event_handle er = Option.none) ∧
    (∀ d, er = Option.some d → d = [] → resolve_event_handle er = Option.none) ∧
    (∀ d s, er = Option.some d → d ≠ [] → discovered_value d = PyVal.vstr s →
      resolve_event_handle er = Option.some
        (if strContainsChar s '/' then lastSegment s else s)) ∧
    (∀ d, er = Option.some d → (∀ s, discovered_value d ≠ PyVal.vstr s) →
      resolve_event_handle er = Option.none) := by
  refine ⟨?_, ?_, ?_, ?_⟩
  · intro h
    rw [h]
    rfl
  · intro d h hd
    rw [h, hd]
    rfl
  · intro d s h hd hs
    rw [h]
    simp only [resolve_event_handle]
    rw [if_neg (by simpa [List.isEmpty_iff] using hd)]
    rw [first_truthy_eq_discovered, hs]
    have htr : pyTruthy (PyVal.vstr s) = true := by
      rcases discovered_truthy d with h0 | h0
      · rw [hs] at h0
        cases h0
      · rw [hs] at h0
        exact h0
    rw [if_neg (by simp [htr])]
  · intro d h hns
    rw [h]
    simp only [resolve_event_handle]
    by_cases hd : d.isEmpty
    · rw [if_pos hd]
    · rw [if_neg hd, first_truthy_eq_discovered]
      cases hv : discovered_value d with
      | vnone => split_ifs <;> rfl
      | vstr s => exact absurd hv (hns s)
      | vint n => split_ifs <;> rfl
      | vother b => split_ifs <;> rfl

theorem mkDate_none_iff (y m d : Int) :
    mkDate y m d = Option.none ↔
      ¬ (1 ≤ y ∧ y ≤ 9999 ∧ 1 ≤ m ∧ m ≤ 12 ∧ 1 ≤ d ∧
        d ≤ (daysInMonth (isLeap y.toNat) m.toNat : Int)) := by
  unfold mkDate
  split_ifs with hc <;> simp [hc]

theorem comboOK_blocks_second (a b c : Int) (h : comboOK c b a) : ¬ comboOK a b c := by
  unfold comboOK at *
  omega

theorem comboOK_blocks_third (a b c : Int) (h : comboOK c b a) : ¬ comboOK a c b := by
  unfold comboOK at *
  omega

theorem mkDate_none_blocks (a b c : Int) (h2 : comboOK a b c)
    (hn : mkDate a b c = Option.none) : ¬ goodCombo a c b := by
  rintro ⟨h3, hs⟩
  obtain ⟨g1, g2, g3, g4, g5, g6⟩ := (mkDate_isSome_iff a c b).mp hs
  have hcond := (mkDate_none_iff a b c).mp hn
  obtain ⟨k1, k2, k3, k4, k5⟩ := h2
  obtain ⟨l1, l2, l3, l4, l5⟩ := h3
  have hdim : 28 ≤ daysInMonth (isLeap a.toNat) b.toNat :=
    daysInMonth_ge (isLeap a.toNat) b.toNat (by omega) (by omega)
  exact hcond ⟨by omega, g2, by omega, by omega, by omega, by omega⟩

theorem goodCombo_not_of_none (y m d : Int) (hn : mkDate y m d = Option.none) :
    ¬ goodCombo y m d := by
  rintro ⟨_, hs⟩
  rw [hn] at hs
  cases hs

theorem parse_chain_none_iff (a b c : Int) :
    (if comboOK c b a then mkDate c b a
     else if comboOK a b c then mkDate a b c
     else if comboOK a c b then mkDate a c b
     else Option.none) = Option.none ↔
      (¬ goodCombo c b a ∧ ¬ goodCombo a b c ∧ ¬ goodCombo a c b) := by
  split_ifs with h1 h2 h3
  · constructor
    · intro hn
      refine ⟨?_, ?_, ?_⟩
      · rintro ⟨_, hs⟩
        rw [hn] at hs
        cases hs
      · rintro ⟨h2', _⟩
        exact comboOK_blocks_second a b c h1 h2'
      · rintro ⟨h3', _⟩
        exact comboOK_blocks_third a b c h1 h3'
    · rintro ⟨hg1, _, _⟩
      cases hmk : mkDate c b a with
      | none => rfl
      | some dt => exact absurd ⟨h1, by rw [hmk]; rfl⟩ hg1
  · constructor
    · intro hn
      exact ⟨fun hg => h1 hg.1, goodCombo_not_of_none a b c hn,
        mkDate_none_blocks a b c h2 hn⟩
    · rintro ⟨_, hg2, _⟩
      cases hmk : mkDate a b c with
      | none => rfl
      | some dt => exact absurd ⟨h2, by rw [hmk]; rfl⟩ hg2
  · constructor
    · intro hn
      exact ⟨fun hg => h1 hg.1, fun hg => h2 hg.1, goodCombo_not_of_none a c b hn⟩
    · rintro ⟨_, _, hg3⟩
      cases hmk : mkDate a c b with
      | none => rfl
      | some dt => exact absurd ⟨h3, by rw [hmk]; rfl⟩ hg3
  · constructor
    · intro _
      exact ⟨fun hg => h1 hg.1, fun hg => h2 hg.1, fun hg => h3 hg.1⟩
    · intro _
      rfl

/-- Claim C8: `_parse_dateval` ignores everything past the first three
elements, and returns `None` exactly when the input has fewer than three
elements, or one of the first three is not an integer, or no ordering both
passes the plausibility checks and yields a constructible calendar date
(which covers the range-checks-pass-but-invalid-date case: when the first
passing ordering builds an invalid date the raised `ValueError` aborts the
scan, and the blocking lemmas show no later ordering could have passed). -/
theorem parse_dateval_unparseable (dateval : List DV) :
    parse_dateval dateval = parse_dateval (dateval.take 3) ∧
    (parse_dateval dateval = Option.none ↔
      (dateval.length < 3 ∨ DV.nonInt ∈ dateval.take 3 ∨
        ∃ a b c, dateval.take 3 = [DV.int a, DV.int b, DV.int c] ∧
          ¬ goodCombo c b a ∧ ¬ goodCombo a b c ∧ ¬ goodCombo a c b)) := by
  constructor
  · simp [parse_dateval, List.take_take]
  · rcases dateval with _ | ⟨v1, _ | ⟨v2, _ | ⟨v3, rest⟩⟩⟩
    · simp [parse_dateval]
    · simp [parse_dateval]
    · simp [parse_dateval]
    · cases v1 with
      | nonInt => simp [parse_dateval, dvToInt]
      | int a =>
        cases v2 with
        | nonInt => simp [parse_dateval, dvToInt]
        | int b =>
          cases v3 with
          | nonInt => simp [parse_dateval, dvToInt]
          | int c =>
            simp only [parse_dateval, List.take, dvToInt]
            rw [parse_chain_none_iff]
            simp only [List.length_cons, List.mem_cons, List.cons.injEq,
              List.not_mem_nil, or_false, reduceCtorEq, false_or,
              DV.int.injEq, and_true]
            constructor
            · intro hgc
              exact Or.inr ⟨a, b, c, ⟨rfl, rfl, rfl⟩, hgc⟩
            · rintro (hlen | ⟨a2, b2, c2, ⟨rfl, rfl, rfl⟩, hgc⟩)
              · omega
              · exact hgc

theorem fetch_event_date_some (fetchEv : String → Option Event) (hh : String)
    (rb : Bool) (d : Date) (h : fetch_event_date fetchEv hh rb = Option.some d) :
    hh ≠ "" ∧ ∃ ev, fetchEv (cleanHandle hh) = Option.some ev ∧
      (rb = true → pyIn "birth" (pyLower ev.type_str) = true) ∧
      parse_dateval ev.dateval = Option.some d := by
  unfold fetch_event_date at h
  by_cases he : hh = ""
  · rw [if_pos he] at h
    cases h
  · rw [if_neg he] at h
    refine ⟨he, ?_⟩
    cases hev : fetchEv (cleanHandle hh) with
    | none => rw [hev] at h; cases h
    | some ev =>
      rw [hev] at h
      dsimp only at h
      by_cases hb : rb = true ∧ pyIn "birth" (pyLower ev.type_str) = false
      · rw [if_pos hb] at h
        cases h
      · rw [if_neg hb] at h
        refine ⟨ev, rfl, ?_, h⟩
        intro hrb
        rcases hpy : pyIn "birth" (pyLower ev.type_str) with _ | _
        · exact absurd ⟨hrb, hpy⟩ hb
        · rfl

theorem try_ref_evidence (fetchEv : String → Option Event)
    (event_ref : Option (List (String × PyVal))) (d : Date)
    (h : try_ref fetchEv true event_ref = Option.some d) :
    ∃ hh, resolve_event_handle event_ref = Option.some hh ∧ hh ≠ "" ∧
      ∃ ev, fetchEv (cleanHandle hh) = Option.some ev ∧
        pyIn "birth" (pyLower ev.type_str) = true ∧
        parse_dateval ev.dateval = Option.some d := by
  unfold try_ref at h
  cases hres : resolve_event_handle event_ref with
  | none => rw [hres] at h; cases h
  | some hh =>
    rw [hres] at h
    dsimp only at h
    obtain ⟨he, ev, h1, h2, h3⟩ := fetch_event_date_some fetchEv hh true d h
    exact ⟨hh, rfl, he, ev, h1, h2 rfl, h3⟩

theorem birth_index_probe_valid_index (fetchEv : String → Option Event)
    (require_birth : Bool) (person : Person) (d : Date)
    (h : birth_index_probe fetchEv require_birth person = Option.some d) :
    ∃ event_ref ∈ person.event_ref_list,
      try_ref fetchEv require_birth event_ref = Option.some d := by
  simp only [birth_index_probe] at h
  split_ifs at h with hidx
  · cases hget : person.event_ref_list[(person.birth_ref_index.getD (-1)).toNat]? with
    | none => rw [hget] at h; cases h
    | some r =>
      rw [hget] at h
      exact ⟨r, List.getElem?_mem hget, h⟩

theorem extract_birth_evidence (fetchEv : String → Option Event) (person : Person)
    (d : Date) (h : extract_birth_date fetchEv person = Option.some d) :
    BirthEvidence fetchEv person d := by
  unfold extract_birth_date at h
  cases hp : birth_index_probe fetchEv true person with
  | some d0 =>
    rw [hp] at h
    injection h with h
    subst h
    obtain ⟨r, hr, htr⟩ := birth_index_probe_valid_index fetchEv true person d0 hp
    obtain ⟨hh, h1, h2, ev, h3, h4, h5⟩ := try_ref_evidence fetchEv r d0 htr
    exact ⟨r, hr, hh, h1, h2, ev, h3, h4, h5⟩
  | none =>
    rw [hp] at h
    obtain ⟨l1, r, l2, hsplit, hfr, _⟩ := List.findSome?_eq_some_iff.mp h
    have hr : r ∈ person.event_ref_list := by
      rw [hsplit]
      exact List.mem_append_right _ (List.mem_cons_self r l2)
    obtain ⟨hh, h1, h2, ev, h3, h4, h5⟩ := try_ref_evidence fetchEv r d hfr
    exact ⟨r, hr, hh, h1, h2, ev, h3, h4, h5⟩

/-- Claim C4: `_extract_birth_date` equals the first-success scan of the
spec-4.3 candidate order (`birth_ref_index` entry first when valid, then the
whole `event_ref_list`) with the birth-type requirement applied to every
candidate; and every returned date carries `BirthEvidence` — it comes from a
resolvable, fetchable event whose type label contains "birth"
case-insensitively — so no date from a non-birth-typed event is ever
returned, even when `_has_birth_date` was true due to a different event. -/
theorem extract_birth_date_search (fetchEv : String → Option Event) (person : Person) :
    extract_birth_date fetchEv person =
      (candidate_refs person).findSome? (try_ref fetchEv true) ∧
    ∀ d, extract_birth_date fetchEv person = Option.some d →
      BirthEvidence fetchEv person d := by
  refine ⟨?_, fun d h => extract_birth_evidence fetchEv person d h⟩
  unfold extract_birth_date candidate_refs
  simp only [birth_index_probe]
  split_ifs with hidx
  · cases hget : person.event_ref_list[(person.birth_ref_index.getD (-1)).toNat]? with
    | none => simp [hget]
    | some r =>
      dsimp only
      cases htr : try_ref fetchEv true r with
      | none => simp [htr, List.findSome?_cons]
      | some d0 => simp [htr, List.findSome?_cons]
  · simp

theorem birthday_row_some (fetchEv : String → Option Event) (today : Date)
    (surname_filter : String) (person : Person) (b : BirthdayInfo)
    (h : birthday_row fetchEv today surname_filter person = Option.some b) :
    is_person_alive person = true ∧
      ∃ bd, extract_birth_date fetchEv person = Option.some bd ∧
        calculate_next_birthday today bd (get_person_name person) = Option.some b := by
  simp only [birthday_row] at h
  by_cases hsf : surname_filter ≠ "" ∧
      pyIn (pyLower surname_filter) (pyLower (get_person_name person)) = false
  · rw [if_pos hsf] at h
    cases h
  · rw [if_neg hsf] at h
    cases hbd : extract_birth_date fetchEv person with
    | none => rw [hbd] at h; cases h
    | some bd =>
      rw [hbd] at h
      dsimp only at h
      by_cases halive : is_person_alive person = true
      · rw [if_pos halive] at h
        exact ⟨halive, bd, rfl, h⟩
      · rw [if_neg halive] at h
        cases h

theorem mem_pySliceTo {α : Type} (l : List α) (n : Int) (a : α)
    (h : a ∈ pySliceTo l n) : a ∈ l := by
  unfold pySliceTo at h
  split_ifs at h <;> exact List.take_subset _ _ h

/-- Claim C1: every BirthdayResult in the `get_birthdays` output is produced
by some person of the input list who is classified alive — i.e. whose
`death_ref_index` (defaulted to -1) equals -1, so a person with
`death_ref_index = 3` can never be the producer — and who has at least one
resolvable, fetchable event whose type label contains "birth"
case-insensitively with a parseable date triple. -/
theorem get_birthdays_invariant (fetchEv : String → Option Event) (today : Date)
    (surname_filter : String) (limit : Int) (people : List Person) (b : BirthdayInfo)
    (hb : b ∈ get_birthdays fetchEv today surname_filter
      (PeopleFetch.data (Option.some people)) limit) :
    ∃ p ∈ people, is_person_alive p = true ∧ p.death_ref_index.getD (-1) = -1 ∧
      ∃ d, extract_birth_date fetchEv p = Option.some d ∧ BirthEvidence fetchEv p d ∧
        calculate_next_birthday today d (get_person_name p) = Option.some b := by
  simp only [get_birthdays] at hb
  by_cases h1 : people.isEmpty
  · rw [if_pos h1] at hb
    exact absurd hb (List.not_mem_nil b)
  · rw [if_neg h1] at hb
    by_cases h2 : (people.filter (has_birth_date fetchEv)).isEmpty
    · rw [if_pos h2] at hb
      exact absurd hb (List.not_mem_nil b)
    · rw [if_neg h2] at hb
      have hb2 : b ∈ List.insertionSort birthdayLE
          (collect_birthdays fetchEv today surname_filter
            (people.filter (has_birth_date fetchEv))) :=
        mem_pySliceTo _ _ _ hb
      have hb3 : b ∈ collect_birthdays fetchEv today surname_filter
          (people.filter (has_birth_date fetchEv)) :=
        (List.perm_insertionSort birthdayLE _).subset hb2
      unfold collect_birthdays at hb3
      obtain ⟨p, hp, hrow⟩ := List.mem_filterMap.mp hb3
      have hpmem : p ∈ people := (List.mem_filter.mp hp).1
      obtain ⟨halive, bd, hbd, hcalc⟩ :=
        birthday_row_some fetchEv today surname_filter p b hrow
      exact ⟨p, hpmem, halive, (alive_iff_getD p).mp halive, bd, hbd,
        extract_birth_evidence fetchEv p bd hbd, hcalc⟩

theorem filter_key_orderedInsert (k : Int) (a : BirthdayInfo) (l : List BirthdayInfo) :
    (List.orderedInsert birthdayLE a l).filter (fun x => x.days_until == k) =
      (if a.days_until == k then
        a :: l.filter (fun x => x.days_until == k)
      else l.filter (fun x => x.days_until == k)) := by
  induction l with
  | nil =>
    simp only [List.orderedInsert, List.filter]
    split_ifs with h <;> simp [h]
  | cons c t ih =>
    by_cases hac : birthdayLE a c
    · simp only [List.orderedInsert, if_pos hac]
      by_cases hak : (a.days_until == k) = true <;>
        by_cases hck : (c.days_until == k) = true <;>
          simp [List.filter_cons, hak, hck]
    · simp only [List.orderedInsert, if_neg hac]
      have hlt : c.days_until < a.days_until := by
        unfold birthdayLE at hac
        omega
      by_cases hak : (a.days_until == k) = true
      · have hck : (c.days_until == k) = false := by
          have hk : a.days_until = k := by simpa using hak
          simp only [beq_eq_false_iff_ne, ne_eq]
          omega
        simp [List.filter_cons, hck, ih, hak]
      · simp [List.filter_cons, ih, hak]

theorem filter_key_insertionSort (k : Int) (l : List BirthdayInfo) :
    (List.insertionSort birthdayLE l).filter (fun x => x.days_until == k) =
      l.filter (fun x => x.days_until == k) := by
  induction l with
  | nil => rfl
  | cons a t ih =>
    simp only [List.insertionSort]
    rw [filter_key_orderedInsert, List.filter_cons, ih]

theorem pySliceTo_sublist {α : Type} (l : List α) (n : Int) :
    (pySliceTo l n).Sublist l := by
  unfold pySliceTo
  split_ifs <;> exact List.take_sublist _ _

/-- Claim C6: the `get_birthdays` output is sorted ascending by `days_until`
(`birthdayLE`), its length never exceeds `limit` (whose declared default is
50), and the sort is stable: for every key value the output's rows with that
`days_until`, in order, form a sublist of the collected rows with that
`days_until` in collection order. -/
theorem get_birthdays_sorted_limited (fetchEv : String → Option Event) (today : Date)
    (surname_filter : String) (people : List Person) (limit : Nat) :
    List.Pairwise birthdayLE
      (get_birthdays fetchEv today surname_filter
        (PeopleFetch.data (Option.some people)) (limit : Int)) ∧
    (get_birthdays fetchEv today surname_filter
      (PeopleFetch.data (Option.some people)) (limit : Int)).length ≤ limit ∧
    (∀ k : Int,
      ((get_birthdays fetchEv today surname_filter
        (PeopleFetch.data (Option.some people)) (limit : Int)).filter
          (fun x => x.days_until == k)).Sublist
        ((collect_birthdays fetchEv today surname_filter
          (people.filter (has_birth_date fetchEv))).filter
            (fun x => x.days_until == k))) ∧
    get_birthdays_default_limit = 50 := by
  simp only [get_birthdays]
  by_cases h1 : people.isEmpty
  · rw [if_pos h1]
    exact ⟨List.Pairwise.nil, by simp, fun k => by simp, rfl⟩
  · rw [if_neg h1]
    by_cases h2 : (people.filter (has_birth_date fetchEv)).isEmpty
    · rw [if_pos h2]
      exact ⟨List.Pairwise.nil, by simp, fun k => by simp, rfl⟩
    · rw [if_neg h2]
      have hsorted : List.Pairwise birthdayLE
          (List.insertionSort birthdayLE
            (collect_birthdays fetchEv today surname_filter
              (people.filter (has_birth_date fetchEv)))) :=
        List.sorted_insertionSort birthdayLE _
      refine ⟨?_, ?_, ?_, rfl⟩
      · exact hsorted.sublist (pySliceTo_sublist _ _)
      · unfold pySliceTo
        rw [if_pos (by omega : (0 : Int) ≤ (limit : Int))]
        have hlen := List.length_take ((limit : Int)).toNat
          (List.insertionSort birthdayLE
            (collect_birthdays fetchEv today surname_filter
              (people.filter (has_birth_date fetchEv))))
        have htn : ((limit : Int)).toNat = limit := by omega
        omega
      · intro k
        have hsub := (pySliceTo_sublist
          (List.insertionSort birthdayLE
            (collect_birthdays fetchEv today surname_filter
              (people.filter (has_birth_date fetchEv)))) (limit : Int)).filter
          (fun x => x.days_until == k)
        rw [filter_key_insertionSort] at hsub
        exact hsub

/-! ### Witnesses: the claim theorems applied at concrete inputs -/

theorem get_birthdays_invariant_witness :
    ∃ p ∈ [wPerson], is_person_alive p = true ∧ p.death_ref_index.getD (-1) = -1 ∧
      ∃ d, extract_birth_date wFetch p = Option.some d ∧ BirthEvidence wFetch p d ∧
        calculate_next_birthday wToday d (get_person_name p) = Option.some wResult :=
  get_birthdays_invariant wFetch wToday "" 50 [wPerson] wResult (by decide)

theorem calculate_next_birthday_spec_witness :
    wResult.person_name = "Ann Lee" ∧
    wResult.birth_date = ⟨1990, 7, 10⟩ ∧
    (∃ ty, replaceYear ⟨1990, 7, 10⟩ ((wToday.year : Int)) = Option.some ty ∧
      ((dateLt ty wToday ∧
          replaceYear ⟨1990, 7, 10⟩ ((wToday.year : Int) + 1) =
            Option.some wResult.next_birthday) ∨
        (¬ dateLt ty wToday ∧ wResult.next_birthday = ty))) ∧
    wResult.days_until = (toOrdinal wResult.next_birthday : Int) - (toOrdinal wToday : Int) ∧
    0 ≤ wResult.days_until ∧
    (wResult.days_until = 0 ↔
      (wToday.month = (⟨1990, 7, 10⟩ : Date).month ∧
        wToday.day = (⟨1990, 7, 10⟩ : Date).day)) ∧
    wResult.age = (wResult.next_birthday.year : Int) - ((⟨1990, 7, 10⟩ : Date).year : Int) :=
  calculate_next_birthday_spec wToday ⟨1990, 7, 10⟩ "Ann Lee" wResult (by decide) (by decide)

theorem extract_birth_date_search_witness :
    BirthEvidence wFetch wPerson ⟨1990, 7, 10⟩ :=
  (extract_birth_date_search wFetch wPerson).2 ⟨1990, 7, 10⟩ (by decide)

theorem resolve_event_handle_spec_witness :
    resolve_event_handle (Option.some [("ref", PyVal.vstr "x/y/")]) =
      Option.some (if strContainsChar "x/y/" '/' then lastSegment "x/y/" else "x/y/") :=
  (resolve_event_handle_spec (Option.some [("ref", PyVal.vstr "x/y/")])).2.2.1
    [("ref", PyVal.vstr "x/y/")] "x/y/" rfl (by decide) (by decide)

theorem feb29_next_birthday_witness :
    (calculate_next_birthday ⟨2024, 2, 1⟩ ⟨2000, 2, 29⟩ "L").isSome = true ↔
      (isLeap (⟨2024, 2, 1⟩ : Date).year = true ∧
        ¬ dateLt ⟨(⟨2024, 2, 1⟩ : Date).year, 2, 29⟩ ⟨2024, 2, 1⟩) :=
  feb29_next_birthday ⟨2024, 2, 1⟩ ⟨2000, 2, 29⟩ "L" (by decide) rfl rfl
